import Mathlib

/-!
Shallow embedding of `packages/next-server/lib/head.tsx`: the head-tag
reconciler (`defaultHead`, `onlyReactElement`, `unique`, `reduceHeadInstances`)
and the registry / lifecycle operations (`headInstanceRefs`, `emitUpdate`,
`Head.rewind`).

Modelling conventions:
* A React element is `Element`: a tag (`ETag`), an optional key
  (React normalises keys to strings, so `key : Option String`), a prop map
  (`Props`), and a child list.  `props.children` of a fragment is modelled as
  the `children` field.
* Prop values are `Option String`: `some s` is a string value, `none` stands
  for JavaScript `undefined` stored under the property name (so
  `hasOwnProperty` can be true while the value is undefined).  A property that
  is absent from the list is a property the object does not own.
* JavaScript truthiness on these values: `none` and `some ""` are falsy.
* `React.Children.toArray` (external collaborator, not part of this
  repository) flattens a child list and re-keys every element child: a child
  carrying a user key `k` gets the reserved auto key `".$" ++ k`, an unkeyed
  child at position `i` gets `"." ++ i` (React uses base-36 digits for the
  position; only the fact that such keys never start with `".$"` matters
  here, so decimal digits are an equivalent rendering).  Strings and numbers
  are kept unchanged.
* JavaScript `Set` iteration order is insertion order; every `add` in
  `unique()` happens directly after a failed membership test, so it is
  modelled by consing onto a Lean list.
-/

set_option autoImplicit false

namespace NextHead

/-- Tag of a React element: either the `React.Fragment` marker or a host tag
name such as `"meta"`, `"title"`, `"base"`. -/
inductive ETag : Type
  | fragment : ETag
  | tag : String → ETag
deriving DecidableEq

/-- Prop maps: ordered own-property lists, value `none` = JS `undefined`. -/
abbrev Props := List (String × Option String)

mutual

inductive Element : Type
  | mk : ETag → Option String → Props → List RNode → Element

inductive RNode : Type
  | text : String → RNode
  | num : Int → RNode
  | elem : Element → RNode

end

/-- `h.type` of a React element. -/
def Element.type : Element → ETag
  | .mk t _ _ _ => t

/-- `h.key` of a React element. -/
def Element.key : Element → Option String
  | .mk _ k _ _ => k

/-- `h.props` of a React element (children kept separately). -/
def Element.props : Element → Props
  | .mk _ _ p _ => p

/-- `h.props.children` of a React element. -/
def Element.children : Element → List RNode
  | .mk _ _ _ c => c

/-- Raw own-property access: `some v` when the object owns the property with
value `v` (`v = none` meaning `undefined`), `none` when it does not. -/
def lookupProp : Props → String → Option (Option String)
  | [], _ => none
  | (k, v) :: rest, key => if k = key then some v else lookupProp rest key

/-- `h.props.hasOwnProperty(k)`. -/
def hasProp (p : Props) (k : String) : Bool :=
  (lookupProp p k).isSome

/-- `h.props[k]` as a JS value: the stored value, or `undefined` (`none`) when
the property is absent. -/
def getProp (p : Props) (k : String) : Option String :=
  (lookupProp p k).getD none

/-- Property assignment as performed by `React.cloneElement` /
`Object.assign`: overwrite in place when the property exists, append
otherwise. -/
def setProp : Props → String → Option String → Props
  | [], k, v => [(k, v)]
  | (k', v') :: rest, k, v =>
      if k' = k then (k, v) :: rest else (k', v') :: setProp rest k v

/-- JS truthiness of a string-or-undefined value. -/
def truthy : Option String → Bool
  | some s => s ≠ ""
  | none => false

/-- `key.indexOf('.$') === 0`: the key starts with the two characters `".$"`
(spelled out over the character list so that it reduces definitionally). -/
def startsWithAuto (s : String) : Bool :=
  match s.data with
  | '.' :: '$' :: _ => true
  | _ => false

/-! ## `defaultHead` (head.tsx lines 14–27) -/

/-- The `<meta key="charSet" charSet="utf-8" className={className} />` element
built by `defaultHead`. -/
def charSetMeta (className : String) : Element :=
  .mk (.tag "meta") (some "charSet")
    [("charSet", some "utf-8"), ("className", some className)] []

/-- The `<meta key="viewport" name="viewport" content="..."
className={className} />` element built by `defaultHead`. -/
def viewportMeta (className : String) : Element :=
  .mk (.tag "meta") (some "viewport")
    [("name", some "viewport"),
     ("content", some "width=device-width,minimum-scale=1,initial-scale=1"),
     ("className", some className)] []

/-- `defaultHead(className = 'next-head', inAmpMode = false)`: the charSet
meta, followed by the viewport meta unless amp mode is on.  The JS default
arguments are `"next-head"` and `false`; every call site in this file passes
both arguments explicitly. -/
def defaultHead (className : String) (inAmpMode : Bool) : List Element :=
  let head := [charSetMeta className]
  if !inAmpMode then head ++ [viewportMeta className] else head

/-! ## `React.Children.toArray` (external collaborator) -/

/-- Re-keying of one child performed by `React.Children.toArray`: an element
child with user key `k` receives the reserved auto key `".$" ++ k`, an
unkeyed element child at position `i` receives `"." ++ i`; non-element
children are untouched. -/
def toArrayKey (i : Nat) : RNode → RNode
  | .elem (.mk t k p c) =>
      .elem (.mk t (some (match k with
        | some s => ".$" ++ s
        | none => "." ++ toString i)) p c)
  | n => n

def toArrayAux : Nat → List RNode → List RNode
  | _, [] => []
  | i, n :: rest => toArrayKey i n :: toArrayAux (i + 1) rest

/-- `React.Children.toArray`: flat child list with reserved keys assigned. -/
def toArray (l : List RNode) : List RNode :=
  toArrayAux 0 l

/-! ## `onlyReactElement` (head.tsx lines 29–58) -/

/-- The anonymous callback of the inner `reduce` over a fragment's children:
keep element children, drop strings and numbers. -/
def fragmentReducer (fragmentList : List Element) (fragmentChild : RNode) :
    List Element :=
  match fragmentChild with
  | .text _ => fragmentList
  | .num _ => fragmentList
  | .elem fe => fragmentList ++ [fe]

/-- The reducer over children: strings and numbers are dropped, a
`React.Fragment` is replaced by its element children (its string/number
children are dropped by the inner reduce), any other element is appended. -/
def onlyReactElement (list : List Element) (child : RNode) : List Element :=
  match child with
  | .text _ => list
  | .num _ => list
  | .elem e =>
      if e.type = ETag.fragment then
        list ++ ((toArray e.children).foldl fragmentReducer [])
      else list ++ [e]

/-- The first two `.reduce` steps of `reduceHeadInstances`: concatenate the
`toArray` image of every registered instance's current children, then run
`onlyReactElement` over the combined sequence. -/
def flattenRefs (refs : List (List RNode)) : List Element :=
  (refs.foldl (fun list r => list ++ toArray r) []).foldl onlyReactElement []

/-! ## `unique()` (head.tsx lines 60–105) -/

/-- `METATYPES = ['name', 'httpEquiv', 'charSet', 'itemProp']`. -/
def METATYPES : List String := ["name", "httpEquiv", "charSet", "itemProp"]

/-- The four mutable tracking sets captured by the `unique()` closure.  The
`metaCategories` object (one set of seen values per metatype, defaulting to
the empty set: `metaCategories[metatype] || new Set()`) is modelled as a
total function from metatype names to value lists. -/
structure UniqueState : Type where
  keys : List String
  tags : List ETag
  metaTypes : List String
  metaCategories : String → List (Option String)

/-- The fresh filter state produced by calling `unique()`. -/
def initState : UniqueState := ⟨[], [], [], fun _ => []⟩

/-- `metaCategories[metatype] = categories`: pointwise update of the
category-sets object. -/
def updateCats (mc : String → List (Option String)) (mt : String)
    (l : List (Option String)) : String → List (Option String) :=
  fun mt' => if mt' = mt then l else mc mt'

/-- The `for` loop of the `meta` case: walk `METATYPES` in order, early-return
`false` on the first duplicated category, otherwise record each present
category and fall through to `true`.  The state updates made before an early
return are kept (the sets are mutated in place in the source). -/
def metaLoop : List String → UniqueState → Props → Bool × UniqueState
  | [], st, _ => (true, st)
  | mt :: rest, st, props =>
      if hasProp props mt then
        if mt = "charSet" then
          if mt ∈ st.metaTypes then (false, st)
          else metaLoop rest { st with metaTypes := mt :: st.metaTypes } props
        else
          let category := getProp props mt
          let categories := st.metaCategories mt
          if category ∈ categories then (false, st)
          else metaLoop rest
            { st with metaCategories :=
                updateCats st.metaCategories mt (category :: categories) } props
      else metaLoop rest st props

/-- The `switch (h.type)` part of the `unique()` closure: `title` and `base`
are limited to one occurrence each, `meta` runs the category loop, every
other tag passes. -/
def categoryRules (st : UniqueState) (h : Element) : Bool × UniqueState :=
  if h.type = ETag.tag "title" ∨ h.type = ETag.tag "base" then
    if h.type ∈ st.tags then (false, st)
    else (true, { st with tags := h.type :: st.tags })
  else if h.type = ETag.tag "meta" then
    metaLoop METATYPES st h.props
  else (true, st)

/-- One call of the closure returned by `unique()`: a truthy string key
starting with `".$"` is deduplicated purely by key, everything else goes
through the category rules.  (`h.key && typeof h.key !== 'number'` is
subsumed: a key starting with `".$"` is a non-empty string.) -/
def uniqueStep (st : UniqueState) (h : Element) : Bool × UniqueState :=
  match h.key with
  | some k =>
      if startsWithAuto k then
        if k ∈ st.keys then (false, st)
        else (true, { st with keys := k :: st.keys })
      else categoryRules st h
  | none => categoryRules st h

/-- `Array.prototype.filter` with the stateful `unique()` callback: one
left-to-right pass threading the closure state. -/
def filterUniqueAux (st : UniqueState) : List Element → List Element
  | [] => []
  | h :: t =>
      if (uniqueStep st h).1 then h :: filterUniqueAux (uniqueStep st h).2 t
      else filterUniqueAux (uniqueStep st h).2 t

/-- `.filter(unique())`: the pass starts from a fresh closure state. -/
def filterUnique (l : List Element) : List Element :=
  filterUniqueAux initState l

/-- The closure state left behind after filtering a list (used to split a
filtering pass over an append). -/
def stateAfter (st : UniqueState) : List Element → UniqueState
  | [] => st
  | h :: t => stateAfter (uniqueStep st h).2 t

/-! ## Final `.map` and `reduceHeadInstances` (head.tsx lines 111–138) -/

/-- The final `.map((c, i) => ...)`: compute the class name (original class,
a space, then `'next-head'`; a `title` without a class keeps `undefined`),
pick `c.key || i` as the key, and `cloneElement` with both. -/
def assignKeyClass (i : Nat) (c : Element) : Element :=
  let cn := getProp c.props "className"
  let className : Option String :=
    if c.type = ETag.tag "title" ∧ ¬ truthy cn then none
    else some ((if truthy cn then cn.getD "" ++ " " else "") ++ "next-head")
  let key : Option String :=
    match c.key with
    | some k => if k = "" then some (toString i) else some k
    | none => some (toString i)
  .mk c.type key (setProp c.props "className" className) c.children

/-- `.map` with the element index, as used in the final step. -/
def mapWithIndex (f : Nat → Element → Element) : Nat → List Element → List Element
  | _, [] => []
  | i, c :: rest => f i c :: mapWithIndex f (i + 1) rest

/-- `reduceHeadInstances(headInstanceRefs, options)`: flatten all instances,
reverse, append `defaultHead('', options.inAmpMode)`, filter with a fresh
`unique()` state, reverse back, and re-key / re-class every survivor. -/
def reduceHeadInstances (refs : List (List RNode)) (inAmpMode : Bool) : List Element :=
  mapWithIndex assignKeyClass 0
    ((filterUnique ((flattenRefs refs).reverse ++ defaultHead "" inAmpMode)).reverse)

/-! ## Registry and lifecycle (head.tsx lines 10–12, 154–196) -/

/-- The module-level mutable state: the `headInstanceRefs` set (insertion
ordered, handles identified by an id with their current contribution read
through `refContents`) and the `headState` cache. -/
structure HeadGlobalState : Type where
  headInstanceRefs : List Nat
  refContents : Nat → List RNode
  headState : Option (List Element)

/-- `headInstanceRefs.add(instanceRef)`: a JS `Set` keeps one copy per
identity, so an already-present handle is left alone. -/
def registerRef (s : HeadGlobalState) (h : Nat) : HeadGlobalState :=
  if h ∈ s.headInstanceRefs then s
  else { s with headInstanceRefs := s.headInstanceRefs ++ [h] }

/-- `headInstanceRefs.delete(instanceRef)`. -/
def unregisterRef (s : HeadGlobalState) (h : Nat) : HeadGlobalState :=
  { s with headInstanceRefs := s.headInstanceRefs.filter (fun x => x != h) }

/-- `emitUpdate`: recompute `headState` from the registered instances (the
`updateHead` publish callback receives the same value and keeps no state of
its own, so it is not part of the modelled state). -/
def emitUpdate (s : HeadGlobalState) (inAmpMode : Bool) : HeadGlobalState :=
  { s with
    headState := some
      (reduceHeadInstances (s.headInstanceRefs.map s.refContents) inAmpMode) }

/-- `Head.rewind()`: return the recorded `headState`, clear it to
`undefined`, and clear the instance set. -/
def rewind (s : HeadGlobalState) : Option (List Element) × HeadGlobalState :=
  (s.headState, { s with headState := none, headInstanceRefs := [] })

/-! ## Predicates used by the claims -/

/-- The reserved auto-key test of `unique()`: a string key starting `".$"`. -/
def isAuto (e : Element) : Bool :=
  match e.key with
  | some k => startsWithAuto k
  | none => false

/-- The element is a `<title>`. -/
def isTitle (e : Element) : Bool :=
  decide (e.type = ETag.tag "title")

/-- The element is a `<base>`. -/
def isBase (e : Element) : Bool :=
  decide (e.type = ETag.tag "base")

/-- The element is a `<meta>` owning a `charSet` attribute. -/
def isMetaCharSet (e : Element) : Bool :=
  decide (e.type = ETag.tag "meta") && hasProp e.props "charSet"

/-- The element is a `<meta>` whose `name` attribute has string value `v`. -/
def metaName (v : String) (e : Element) : Bool :=
  decide (e.type = ETag.tag "meta") && decide (getProp e.props "name" = some v)

/-- The element's key is exactly `some k`. -/
def keyIs (k : String) (e : Element) : Bool :=
  decide (e.key = some k)

/-- A non-auto-keyed `<meta>` whose only recognised identity attribute is
`name` (present with a string value). -/
def nameOnlyMeta (e : Element) : Bool :=
  !isAuto e && decide (e.type = ETag.tag "meta") &&
    (getProp e.props "name").isSome && !hasProp e.props "httpEquiv" &&
    !hasProp e.props "charSet" && !hasProp e.props "itemProp"

/-! ## Spec-side description of the flatten step (for the refinement claim) -/

/-- The effect of the inner fragment reduce on one child: keep an element,
drop a string or number. -/
def elemChildOnly : RNode → List Element
  | .text _ => []
  | .num _ => []
  | .elem e => [e]

/-- Spec-side one-level flattening, written after the amended wording of the
flatten claim: a top-level fragment is replaced by its re-keyed element
children (strings and numbers dropped), any other element maps to itself, and
top-level strings and numbers are dropped; fragments nested inside a fragment
are NOT recursed into. -/
def flattenSpecOneLevel : RNode → List Element
  | .text _ => []
  | .num _ => []
  | .elem e =>
      if e.type = ETag.fragment then (toArray e.children).flatMap elemChildOnly
      else [e]

/-! ## Sample contributions used in concrete statements -/

/-- A `<title>` with an optional caller key. -/
def sampleTitle (k : Option String) (s : String) : RNode :=
  .elem (.mk (.tag "title") k [] [.text s])

/-- A `<meta charSet="utf-8">` with an optional caller key. -/
def sampleMetaCharSet (k : Option String) : RNode :=
  .elem (.mk (.tag "meta") k [("charSet", some "utf-8")] [])

/-- A `<meta name=v content=c>` with an optional caller key. -/
def sampleMetaName (k : Option String) (v c : String) : RNode :=
  .elem (.mk (.tag "meta") k [("name", some v), ("content", some c)] [])

end NextHead

namespace NextHead

/-! ## Claim C1 -/

/-- C1 counterexample: with no contributors and amp off, the merged output is
NOT the default contribution in charSet-then-viewport order — the final
reversal puts the defaults in the opposite order. -/
theorem claim_C1_counterexample :
    reduceHeadInstances [] false ≠ defaultHead "next-head" false :=
  fun h => absurd (congrArg (List.map Element.key) h) (by decide)

/-- C1 (amended): with no contributors and amp off, the merged output equals
the REVERSE of the default contribution — the viewport meta first, the
charSet meta second, each carrying the `next-head` class. -/
theorem claim_C1_amended :
    reduceHeadInstances [] false = (defaultHead "next-head" false).reverse := rfl

/-! ## Claim C5 -/

/-- C5: `rewind` directly after `emitUpdate` returns exactly the freshly
computed merged result; a second `rewind` with no recompute in between
returns `none`; and after any `rewind` the registry is empty and the cached
result is cleared. -/
theorem claim_C5 : ∀ (s : HeadGlobalState) (amp : Bool),
    (rewind (emitUpdate s amp)).1 =
      some (reduceHeadInstances (s.headInstanceRefs.map s.refContents) amp) ∧
    (rewind ((rewind (emitUpdate s amp)).2)).1 = none ∧
    ∀ s' : HeadGlobalState,
      (rewind s').2.headInstanceRefs = [] ∧ (rewind s').2.headState = none :=
  fun _ _ => ⟨rfl, rfl, fun _ => ⟨rfl, rfl⟩⟩

/-! ## Claim C8 -/

/-- C8: `defaultHead` is a pure function of the class name and the amp flag;
in normal mode it returns exactly the charSet meta followed by the
fixed-content viewport meta, in amp mode exactly the charSet meta alone. -/
theorem claim_C8 : ∀ cn : String,
    defaultHead cn false = [charSetMeta cn, viewportMeta cn] ∧
    defaultHead cn true = [charSetMeta cn] :=
  fun _ => ⟨rfl, rfl⟩

/-! ## Claim C9 -/

/-- C9: adding an already-present handle and deleting an absent handle are
no-ops — both registry operations are idempotent and total. -/
theorem claim_C9 : ∀ (s : HeadGlobalState) (h : Nat),
    registerRef (registerRef s h) h = registerRef s h ∧
    unregisterRef (unregisterRef s h) h = unregisterRef s h := by
  intro s h
  constructor
  · by_cases hm : h ∈ s.headInstanceRefs
    · simp [registerRef, hm]
    · simp [registerRef, hm]
  · simp [unregisterRef, List.filter_filter]

/-! ## Claim C10 -/

/-- C10: a meta carrying both `name` and a duplicated `charSet` records its
`name` category before the `charSet` check rejects it, and this recorded
category then drops a later meta with the same `(name, value)` pair: after a
plain charSet meta, the double-attribute meta is rejected with `"x"` recorded
under `name`; filtering `[charset-meta, double-meta, name-meta]` keeps only
the charset meta, while without the rejected double-meta the name-meta
survives. -/
theorem claim_C10 :
    (uniqueStep
        (uniqueStep initState (.mk (.tag "meta") none [("charSet", some "utf-8")] [])).2
        (.mk (.tag "meta") none [("name", some "x"), ("charSet", some "utf-8")] [])).1
      = false ∧
    some "x" ∈
      (uniqueStep
          (uniqueStep initState (.mk (.tag "meta") none [("charSet", some "utf-8")] [])).2
          (.mk (.tag "meta") none [("name", some "x"), ("charSet", some "utf-8")] [])).2.metaCategories
        "name" ∧
    filterUnique
        [.mk (.tag "meta") none [("charSet", some "utf-8")] [],
         .mk (.tag "meta") none [("name", some "x"), ("charSet", some "utf-8")] [],
         .mk (.tag "meta") none [("name", some "x"), ("content", some "z")] []]
      = [.mk (.tag "meta") none [("charSet", some "utf-8")] []] ∧
    filterUnique
        [.mk (.tag "meta") none [("charSet", some "utf-8")] [],
         .mk (.tag "meta") none [("name", some "x"), ("content", some "z")] []]
      = [.mk (.tag "meta") none [("charSet", some "utf-8")] [],
         .mk (.tag "meta") none [("name", some "x"), ("content", some "z")] []] := by
  exact ⟨rfl, by decide, rfl, rfl⟩

/-! ## Counterexamples for C2, C3, C4, C6 -/

/-- C2 counterexample: two `<title>` elements registered under distinct
caller keys both survive — the merged output contains two titles. -/
theorem claim_C2_counterexample :
    ((reduceHeadInstances [[sampleTitle (some "a") "A"],
        [sampleTitle (some "b") "B"]] false).countP isTitle) = 2 := by
  decide

/-- C3 counterexample: a charSet meta registered under a caller key is
deduplicated by key alone, so it and the default charSet meta both survive —
two elements with a `charSet` attribute in one merged output. -/
theorem claim_C3_counterexample :
    ((reduceHeadInstances [[sampleMetaCharSet (some "a")]] false).countP
      isMetaCharSet) = 2 := by
  decide

/-- C4 counterexample: two metas with the same `name` but distinct caller
keys both survive, so it is not true that only the later-registered one
appears. -/
theorem claim_C4_counterexample :
    ((reduceHeadInstances [[sampleMetaName (some "a") "x" "1"],
        [sampleMetaName (some "b") "x" "2"]] false).countP (metaName "x")) = 2 := by
  decide

/-- C6 counterexample: a fragment nested inside a fragment is NOT replaced by
its children — the flatten step emits it as an element, so flattening is one
level deep, not recursive. -/
theorem claim_C6_counterexample :
    (flattenRefs [[.elem (.mk .fragment none []
        [.elem (.mk .fragment none [] [sampleTitle none "T"])])]]).map Element.type
      = [ETag.fragment] := by
  decide

end NextHead

namespace NextHead

/-! ## State-evolution facts about the `unique()` closure -/

theorem metaLoop_keys (mts : List String) (p : Props) :
    ∀ st : UniqueState, (metaLoop mts st p).2.keys = st.keys := by
  induction mts with
  | nil => intro st; rfl
  | cons mt rest ih =>
      intro st
      by_cases h1 : hasProp p mt
      · by_cases h2 : mt = "charSet"
        · subst h2
          by_cases h3 : "charSet" ∈ st.metaTypes
          · simp [metaLoop, h1, h3]
          · simp [metaLoop, h1, h3, ih]
        · by_cases h4 : getProp p mt ∈ st.metaCategories mt
          · simp [metaLoop, h1, h2, h4]
          · simp [metaLoop, h1, h2, h4, ih]
      · simp [metaLoop, h1, ih]

theorem metaLoop_tags (mts : List String) (p : Props) :
    ∀ st : UniqueState, (metaLoop mts st p).2.tags = st.tags := by
  induction mts with
  | nil => intro st; rfl
  | cons mt rest ih =>
      intro st
      by_cases h1 : hasProp p mt
      · by_cases h2 : mt = "charSet"
        · subst h2
          by_cases h3 : "charSet" ∈ st.metaTypes
          · simp [metaLoop, h1, h3]
          · simp [metaLoop, h1, h3, ih]
        · by_cases h4 : getProp p mt ∈ st.metaCategories mt
          · simp [metaLoop, h1, h2, h4]
          · simp [metaLoop, h1, h2, h4, ih]
      · simp [metaLoop, h1, ih]

theorem metaLoop_metaTypes_mono (mts : List String) (p : Props) (x : String) :
    ∀ st : UniqueState, x ∈ st.metaTypes → x ∈ (metaLoop mts st p).2.metaTypes := by
  induction mts with
  | nil => intro st hx; exact hx
  | cons mt rest ih =>
      intro st hx
      by_cases h1 : hasProp p mt
      · by_cases h2 : mt = "charSet"
        · subst h2
          by_cases h3 : "charSet" ∈ st.metaTypes
          · simpa [metaLoop, h1, h3] using hx
          · simp only [metaLoop, h1, h3, if_true, if_false, ite_true, ite_false]
            exact ih _ (List.mem_cons_of_mem _ hx)
        · by_cases h4 : getProp p mt ∈ st.metaCategories mt
          · simpa [metaLoop, h1, h2, h4] using hx
          · simp only [metaLoop, h1, h2, h4, if_true, if_false, ite_true, ite_false]
            exact ih _ hx
      · simp only [metaLoop, h1, if_false, ite_false]
        exact ih _ hx

theorem metaLoop_cats_mono (mts : List String) (p : Props) (mt0 : String)
    (v : Option String) :
    ∀ st : UniqueState, v ∈ st.metaCategories mt0 →
      v ∈ (metaLoop mts st p).2.metaCategories mt0 := by
  induction mts with
  | nil => intro st hv; exact hv
  | cons mt rest ih =>
      intro st hv
      by_cases h1 : hasProp p mt
      · by_cases h2 : mt = "charSet"
        · subst h2
          by_cases h3 : "charSet" ∈ st.metaTypes
          · simpa [metaLoop, h1, h3] using hv
          · simp only [metaLoop, h1, h3, ite_true, ite_false]
            exact ih _ hv
        · by_cases h4 : getProp p mt ∈ st.metaCategories mt
          · simpa [metaLoop, h1, h2, h4] using hv
          · simp only [metaLoop, h1, h2, h4, ite_true, ite_false]
            refine ih _ ?_
            by_cases h5 : mt0 = mt
            · subst h5
              simp [updateCats]
              exact Or.inr hv
            · simpa [updateCats, h5] using hv
      · simp only [metaLoop, h1, ite_false]
        exact ih _ hv

theorem metaLoop_cats_inv (mts : List String) (p : Props) (mt0 : String)
    (v : Option String) :
    ∀ st : UniqueState, v ∈ (metaLoop mts st p).2.metaCategories mt0 →
      v ∈ st.metaCategories mt0 ∨
        (mt0 ∈ mts ∧ hasProp p mt0 = true ∧ getProp p mt0 = v) := by
  induction mts with
  | nil => intro st hv; exact Or.inl hv
  | cons mt rest ih =>
      intro st hv
      by_cases h1 : hasProp p mt
      · by_cases h2 : mt = "charSet"
        · subst h2
          by_cases h3 : "charSet" ∈ st.metaTypes
          · exact Or.inl (by simpa [metaLoop, h1, h3] using hv)
          · rw [metaLoop] at hv
            simp only [h1, h3, ite_true, ite_false, if_true, if_false] at hv
            rcases ih _ hv with hl | hr
            · exact Or.inl hl
            · exact Or.inr ⟨List.mem_cons_of_mem _ hr.1, hr.2⟩
        · by_cases h4 : getProp p mt ∈ st.metaCategories mt
          · exact Or.inl (by simpa [metaLoop, h1, h2, h4] using hv)
          · rw [metaLoop] at hv
            simp only [h1, h2, h4, ite_true, ite_false, if_true, if_false] at hv
            rcases ih _ hv with hl | hr
            · by_cases h5 : mt0 = mt
              · subst h5
                simp only [updateCats, if_pos rfl] at hl
                rcases List.mem_cons.mp hl with he | hm
                · exact Or.inr ⟨List.mem_cons_self _ _, h1, he.symm⟩
                · exact Or.inl hm
              · exact Or.inl (by simpa [updateCats, h5] using hl)
            · exact Or.inr ⟨List.mem_cons_of_mem _ hr.1, hr.2⟩
      · rw [metaLoop] at hv
        simp only [h1, ite_false, if_false] at hv
        rcases ih _ hv with hl | hr
        · exact Or.inl hl
        · exact Or.inr ⟨List.mem_cons_of_mem _ hr.1, hr.2⟩

theorem metaLoop_charSet_reject (mts : List String) (p : Props)
    (hmem : "charSet" ∈ mts) (hp : hasProp p "charSet" = true) :
    ∀ st : UniqueState, "charSet" ∈ st.metaTypes → (metaLoop mts st p).1 = false := by
  induction mts with
  | nil => cases hmem
  | cons mt rest ih =>
      intro st hcs
      by_cases h1 : hasProp p mt
      · by_cases h2 : mt = "charSet"
        · subst h2
          simp [metaLoop, h1, hcs]
        · by_cases h4 : getProp p mt ∈ st.metaCategories mt
          · simp [metaLoop, h1, h2, h4]
          · simp only [metaLoop, h1, h2, h4, ite_true, ite_false, if_true, if_false]
            have hmem' : "charSet" ∈ rest := by
              rcases List.mem_cons.mp hmem with he | hr
              · exact absurd he.symm h2
              · exact hr
            exact ih hmem' _ (by simpa using hcs)
      · have h2 : mt ≠ "charSet" := fun he => h1 (he ▸ hp)
        have hmem' : "charSet" ∈ rest := by
          rcases List.mem_cons.mp hmem with he | hr
          · exact absurd he.symm h2
          · exact hr
        simp only [metaLoop, h1, ite_false, if_false]
        exact ih hmem' _ hcs

theorem metaLoop_charSet_record (mts : List String) (p : Props)
    (hmem : "charSet" ∈ mts) (hp : hasProp p "charSet" = true) :
    ∀ st : UniqueState, (metaLoop mts st p).1 = true →
      "charSet" ∈ (metaLoop mts st p).2.metaTypes := by
  induction mts with
  | nil => cases hmem
  | cons mt rest ih =>
      intro st htrue
      by_cases h1 : hasProp p mt
      · by_cases h2 : mt = "charSet"
        · subst h2
          by_cases h3 : "charSet" ∈ st.metaTypes
          · simp [metaLoop, h1, h3] at htrue
          · rw [metaLoop]
            simp only [h1, h3, ite_true, ite_false, if_true, if_false]
            exact metaLoop_metaTypes_mono rest p "charSet" _ (List.mem_cons_self _ _)
        · have hmem' : "charSet" ∈ rest := by
            rcases List.mem_cons.mp hmem with he | hr
            · exact absurd he.symm h2
            · exact hr
          by_cases h4 : getProp p mt ∈ st.metaCategories mt
          · simp [metaLoop, h1, h2, h4] at htrue
          · rw [metaLoop] at htrue ⊢
            simp only [h1, h2, h4, ite_true, ite_false, if_true, if_false] at htrue ⊢
            exact ih hmem' _ htrue
      · have h2 : mt ≠ "charSet" := fun he => h1 (he ▸ hp)
        have hmem' : "charSet" ∈ rest := by
          rcases List.mem_cons.mp hmem with he | hr
          · exact absurd he.symm h2
          · exact hr
        rw [metaLoop] at htrue ⊢
        simp only [h1, ite_false, if_false] at htrue ⊢
        exact ih hmem' _ htrue

end NextHead

namespace NextHead

theorem hasProp_of_getProp {p : Props} {k : String} {v : String}
    (h : getProp p k = some v) : hasProp p k = true := by
  unfold getProp at h
  unfold hasProp
  cases hl : lookupProp p k with
  | none => rw [hl] at h; cases h
  | some w => simp

theorem isAuto_eq_true {h : Element} (ha : isAuto h = true) :
    ∃ k, h.key = some k ∧ startsWithAuto k = true := by
  unfold isAuto at ha
  cases hk : h.key with
  | none => rw [hk] at ha; cases ha
  | some k => rw [hk] at ha; exact ⟨k, rfl, ha⟩

theorem uniqueStep_auto {st : UniqueState} {h : Element} {k : String}
    (hk : h.key = some k) (hs : startsWithAuto k = true) :
    uniqueStep st h =
      if k ∈ st.keys then (false, st)
      else (true, { st with keys := k :: st.keys }) := by
  simp [uniqueStep, hk, hs]

theorem uniqueStep_not_auto {st : UniqueState} {h : Element}
    (ha : isAuto h = false) : uniqueStep st h = categoryRules st h := by
  cases hk : h.key with
  | none => simp [uniqueStep, hk]
  | some k =>
      have hs : startsWithAuto k = false := by simpa [isAuto, hk] using ha
      simp [uniqueStep, hk, hs]

theorem categoryRules_tb {st : UniqueState} {h : Element} {t : ETag}
    (hTB : t = ETag.tag "title" ∨ t = ETag.tag "base") (hty : h.type = t) :
    categoryRules st h =
      if t ∈ st.tags then (false, st)
      else (true, { st with tags := t :: st.tags }) := by
  unfold categoryRules
  rw [hty, if_pos hTB]

theorem categoryRules_meta {st : UniqueState} {h : Element}
    (hty : h.type = ETag.tag "meta") :
    categoryRules st h = metaLoop METATYPES st h.props := by
  unfold categoryRules
  rw [hty, if_neg (by decide), if_pos rfl]

theorem categoryRules_other {st : UniqueState} {h : Element}
    (h1 : ¬(h.type = ETag.tag "title" ∨ h.type = ETag.tag "base"))
    (h2 : ¬(h.type = ETag.tag "meta")) : categoryRules st h = (true, st) := by
  unfold categoryRules
  rw [if_neg h1, if_neg h2]

theorem categoryRules_keys (st : UniqueState) (h : Element) :
    (categoryRules st h).2.keys = st.keys := by
  by_cases h1 : h.type = ETag.tag "title" ∨ h.type = ETag.tag "base"
  · rw [categoryRules_tb h1 rfl]
    by_cases h2 : h.type ∈ st.tags <;> simp [h2]
  · by_cases h3 : h.type = ETag.tag "meta"
    · rw [categoryRules_meta h3, metaLoop_keys]
    · rw [categoryRules_other h1 h3]

theorem categoryRules_tags_cases (st : UniqueState) (h : Element) :
    (categoryRules st h).2.tags = st.tags ∨
      (categoryRules st h).2.tags = h.type :: st.tags := by
  by_cases h1 : h.type = ETag.tag "title" ∨ h.type = ETag.tag "base"
  · rw [categoryRules_tb h1 rfl]
    by_cases h2 : h.type ∈ st.tags
    · exact Or.inl (by simp [h2])
    · exact Or.inr (by simp [h2])
  · by_cases h3 : h.type = ETag.tag "meta"
    · rw [categoryRules_meta h3, metaLoop_tags]
      exact Or.inl rfl
    · rw [categoryRules_other h1 h3]
      exact Or.inl rfl

theorem categoryRules_metaTypes_mono (st : UniqueState) (h : Element)
    (x : String) (hx : x ∈ st.metaTypes) :
    x ∈ (categoryRules st h).2.metaTypes := by
  by_cases h1 : h.type = ETag.tag "title" ∨ h.type = ETag.tag "base"
  · rw [categoryRules_tb h1 rfl]
    by_cases h2 : h.type ∈ st.tags <;> simpa [h2] using hx
  · by_cases h3 : h.type = ETag.tag "meta"
    · rw [categoryRules_meta h3]
      exact metaLoop_metaTypes_mono _ _ _ _ hx
    · rw [categoryRules_other h1 h3]
      exact hx

theorem categoryRules_cats_mono (st : UniqueState) (h : Element)
    (mt : String) (v : Option String) (hv : v ∈ st.metaCategories mt) :
    v ∈ (categoryRules st h).2.metaCategories mt := by
  by_cases h1 : h.type = ETag.tag "title" ∨ h.type = ETag.tag "base"
  · rw [categoryRules_tb h1 rfl]
    by_cases h2 : h.type ∈ st.tags <;> simpa [h2] using hv
  · by_cases h3 : h.type = ETag.tag "meta"
    · rw [categoryRules_meta h3]
      exact metaLoop_cats_mono _ _ _ _ _ hv
    · rw [categoryRules_other h1 h3]
      exact hv

theorem categoryRules_cats_inv (st : UniqueState) (h : Element)
    (mt : String) (v : Option String)
    (hv : v ∈ (categoryRules st h).2.metaCategories mt) :
    v ∈ st.metaCategories mt ∨
      (h.type = ETag.tag "meta" ∧ hasProp h.props mt = true ∧
        getProp h.props mt = v) := by
  by_cases h1 : h.type = ETag.tag "title" ∨ h.type = ETag.tag "base"
  · rw [categoryRules_tb h1 rfl] at hv
    by_cases h2 : h.type ∈ st.tags
    · exact Or.inl (by simpa [h2] using hv)
    · exact Or.inl (by simpa [h2] using hv)
  · by_cases h3 : h.type = ETag.tag "meta"
    · rw [categoryRules_meta h3] at hv
      rcases metaLoop_cats_inv _ _ _ _ _ hv with hl | hr
      · exact Or.inl hl
      · exact Or.inr ⟨h3, hr.2⟩
    · rw [categoryRules_other h1 h3] at hv
      exact Or.inl hv

theorem uniqueStep_keys_cases (st : UniqueState) (h : Element) :
    (uniqueStep st h).2.keys = st.keys ∨
      ∃ k, h.key = some k ∧ (uniqueStep st h).2.keys = k :: st.keys := by
  cases ha : isAuto h
  · rw [uniqueStep_not_auto ha]
    exact Or.inl (categoryRules_keys st h)
  · obtain ⟨k, hk, hs⟩ := isAuto_eq_true ha
    rw [uniqueStep_auto hk hs]
    by_cases hm : k ∈ st.keys
    · exact Or.inl (by simp [hm])
    · exact Or.inr ⟨k, hk, by simp [hm]⟩

theorem uniqueStep_tags_cases (st : UniqueState) (h : Element) :
    (uniqueStep st h).2.tags = st.tags ∨
      (uniqueStep st h).2.tags = h.type :: st.tags := by
  cases ha : isAuto h
  · rw [uniqueStep_not_auto ha]
    exact categoryRules_tags_cases st h
  · obtain ⟨k, hk, hs⟩ := isAuto_eq_true ha
    rw [uniqueStep_auto hk hs]
    by_cases hm : k ∈ st.keys
    · exact Or.inl (by simp [hm])
    · exact Or.inl (by simp [hm])

theorem uniqueStep_metaTypes_mono (st : UniqueState) (h : Element)
    (x : String) (hx : x ∈ st.metaTypes) : x ∈ (uniqueStep st h).2.metaTypes := by
  cases ha : isAuto h
  · rw [uniqueStep_not_auto ha]
    exact categoryRules_metaTypes_mono st h x hx
  · obtain ⟨k, hk, hs⟩ := isAuto_eq_true ha
    rw [uniqueStep_auto hk hs]
    by_cases hm : k ∈ st.keys <;> simpa [hm] using hx

theorem uniqueStep_cats_mono (st : UniqueState) (h : Element)
    (mt : String) (v : Option String) (hv : v ∈ st.metaCategories mt) :
    v ∈ (uniqueStep st h).2.metaCategories mt := by
  cases ha : isAuto h
  · rw [uniqueStep_not_auto ha]
    exact categoryRules_cats_mono st h mt v hv
  · obtain ⟨k, hk, hs⟩ := isAuto_eq_true ha
    rw [uniqueStep_auto hk hs]
    by_cases hm : k ∈ st.keys <;> simpa [hm] using hv

theorem uniqueStep_cats_inv (st : UniqueState) (h : Element)
    (mt : String) (v : Option String)
    (hv : v ∈ (uniqueStep st h).2.metaCategories mt) :
    v ∈ st.metaCategories mt ∨
      (h.type = ETag.tag "meta" ∧ hasProp h.props mt = true ∧
        getProp h.props mt = v) := by
  cases ha : isAuto h
  · rw [uniqueStep_not_auto ha] at hv
    exact categoryRules_cats_inv st h mt v hv
  · obtain ⟨k, hk, hs⟩ := isAuto_eq_true ha
    rw [uniqueStep_auto hk hs] at hv
    by_cases hm : k ∈ st.keys
    · exact Or.inl (by simpa [hm] using hv)
    · exact Or.inl (by simpa [hm] using hv)

end NextHead

namespace NextHead

/-! ## Facts about the stateful filtering pass -/

theorem filterUniqueAux_cons (st : UniqueState) (h : Element) (t : List Element) :
    filterUniqueAux st (h :: t) =
      if (uniqueStep st h).1 then h :: filterUniqueAux (uniqueStep st h).2 t
      else filterUniqueAux (uniqueStep st h).2 t := rfl

theorem filterUniqueAux_append (l2 : List Element) :
    ∀ (l1 : List Element) (st : UniqueState),
      filterUniqueAux st (l1 ++ l2) =
        filterUniqueAux st l1 ++ filterUniqueAux (stateAfter st l1) l2 := by
  intro l1
  induction l1 with
  | nil => intro st; rfl
  | cons h t ih =>
      intro st
      rw [List.cons_append, filterUniqueAux_cons, filterUniqueAux_cons]
      cases hb : (uniqueStep st h).1
      · simp only [Bool.false_eq_true, if_false]
        exact ih _
      · simp only [if_true, List.cons_append]
        rw [ih]
        rfl

/-- FL1: the auto-key pass.  For an auto key `k`, the survivors whose key is
exactly `k` are empty once `k` has been seen, and otherwise are exactly the
first occurrence of a `k`-keyed element, whatever its tag or attributes. -/
theorem filterUniqueAux_keyIs (k : String) (hk : startsWithAuto k = true) :
    ∀ (l : List Element) (st : UniqueState),
      (k ∈ st.keys → (filterUniqueAux st l).filter (keyIs k) = []) ∧
      (k ∉ st.keys →
        (filterUniqueAux st l).filter (keyIs k) = (l.filter (keyIs k)).take 1) := by
  intro l
  induction l with
  | nil => intro st; exact ⟨fun _ => rfl, fun _ => rfl⟩
  | cons h t ih =>
      intro st
      by_cases hkh : keyIs k h = true
      · have hkey : h.key = some k := by simpa [keyIs] using hkh
        constructor
        · intro hmem
          have hstep : uniqueStep st h = (false, st) := by
            rw [uniqueStep_auto hkey hk, if_pos hmem]
          rw [filterUniqueAux_cons, hstep]
          simp only [Bool.false_eq_true, if_false]
          exact (ih st).1 hmem
        · intro hmem
          have hstep : uniqueStep st h =
              (true, { st with keys := k :: st.keys }) := by
            rw [uniqueStep_auto hkey hk, if_neg hmem]
          rw [filterUniqueAux_cons, hstep]
          simp only [if_true]
          rw [List.filter_cons, if_pos hkh, List.filter_cons, if_pos hkh]
          rw [(ih _).1 (List.mem_cons_self _ _)]
          rfl
      · have hkne : ¬ (h.key = some k) := fun he => hkh (by simp [keyIs, he])
        have hpres : k ∈ (uniqueStep st h).2.keys ↔ k ∈ st.keys := by
          rcases uniqueStep_keys_cases st h with he | ⟨k', hk', he⟩
          · rw [he]
          · rw [he]
            constructor
            · intro hm
              rcases List.mem_cons.mp hm with h1 | h1
              · exact absurd (h1 ▸ hk') hkne
              · exact h1
            · exact List.mem_cons_of_mem _
        constructor
        · intro hmem
          rw [filterUniqueAux_cons]
          cases hb : (uniqueStep st h).1
          · simp only [Bool.false_eq_true, if_false]
            exact (ih _).1 (hpres.mpr hmem)
          · simp only [if_true]
            rw [List.filter_cons, if_neg (by simp [hkh])]
            exact (ih _).1 (hpres.mpr hmem)
        · intro hmem
          rw [filterUniqueAux_cons]
          have hmem' : k ∉ (uniqueStep st h).2.keys := fun hx => hmem (hpres.mp hx)
          cases hb : (uniqueStep st h).1
          · simp only [Bool.false_eq_true, if_false]
            rw [(ih _).2 hmem', List.filter_cons, if_neg (by simp [hkh])]
          · simp only [if_true]
            rw [List.filter_cons, if_neg (by simp [hkh]),
              List.filter_cons, if_neg (by simp [hkh])]
            exact (ih _).2 hmem'

/-- FL2a: once a `title`/`base` tag has been recorded, no further non-auto
element of that tag survives. -/
theorem filterUniqueAux_tag_zero (t0 : ETag)
    (hTB : t0 = ETag.tag "title" ∨ t0 = ETag.tag "base") :
    ∀ (l : List Element) (st : UniqueState), (∀ e ∈ l, isAuto e = false) →
      t0 ∈ st.tags →
      (filterUniqueAux st l).filter (fun e => decide (e.type = t0)) = [] := by
  intro l
  induction l with
  | nil => intro st _ _; rfl
  | cons h t ih =>
      intro st hna hmem
      have hah : isAuto h = false := hna h (List.mem_cons_self _ _)
      have hnat : ∀ e ∈ t, isAuto e = false :=
        fun e he => hna e (List.mem_cons_of_mem _ he)
      by_cases hth : h.type = t0
      · have hstep : uniqueStep st h = (false, st) := by
          rw [uniqueStep_not_auto hah, categoryRules_tb hTB hth, if_pos hmem]
        rw [filterUniqueAux_cons, hstep]
        simp only [Bool.false_eq_true, if_false]
        exact ih st hnat hmem
      · have hpres : t0 ∈ (uniqueStep st h).2.tags := by
          rcases uniqueStep_tags_cases st h with he | he
          · rw [he]; exact hmem
          · rw [he]; exact List.mem_cons_of_mem _ hmem
        rw [filterUniqueAux_cons]
        cases hb : (uniqueStep st h).1
        · simp only [Bool.false_eq_true, if_false]
          exact ih _ hnat hpres
        · simp only [if_true]
          rw [List.filter_cons, if_neg (by simp [hth])]
          exact ih _ hnat hpres

/-- FL2b: while a `title`/`base` tag is unrecorded, the survivors of that tag
are exactly the first occurrence in the pass order. -/
theorem filterUniqueAux_tag_take (t0 : ETag)
    (hTB : t0 = ETag.tag "title" ∨ t0 = ETag.tag "base") :
    ∀ (l : List Element) (st : UniqueState), (∀ e ∈ l, isAuto e = false) →
      t0 ∉ st.tags →
      (filterUniqueAux st l).filter (fun e => decide (e.type = t0)) =
        (l.filter (fun e => decide (e.type = t0))).take 1 := by
  intro l
  induction l with
  | nil => intro st _ _; rfl
  | cons h t ih =>
      intro st hna hmem
      have hah : isAuto h = false := hna h (List.mem_cons_self _ _)
      have hnat : ∀ e ∈ t, isAuto e = false :=
        fun e he => hna e (List.mem_cons_of_mem _ he)
      by_cases hth : h.type = t0
      · have hstep : uniqueStep st h =
            (true, { st with tags := t0 :: st.tags }) := by
          rw [uniqueStep_not_auto hah, categoryRules_tb hTB hth, if_neg hmem]
        rw [filterUniqueAux_cons, hstep]
        simp only [if_true]
        rw [List.filter_cons, if_pos (by simp [hth]),
          List.filter_cons, if_pos (by simp [hth])]
        rw [filterUniqueAux_tag_zero t0 hTB t _ hnat (List.mem_cons_self _ _)]
        rfl
      · have hpres : t0 ∉ (uniqueStep st h).2.tags := by
          rcases uniqueStep_tags_cases st h with he | he
          · rw [he]; exact hmem
          · rw [he]
            intro hx
            rcases List.mem_cons.mp hx with h1 | h1
            · exact hth h1.symm
            · exact hmem h1
        rw [filterUniqueAux_cons]
        cases hb : (uniqueStep st h).1
        · simp only [Bool.false_eq_true, if_false]
          rw [ih _ hnat hpres, List.filter_cons, if_neg (by simp [hth])]
        · simp only [if_true]
          rw [List.filter_cons, if_neg (by simp [hth]),
            List.filter_cons, if_neg (by simp [hth])]
          exact ih _ hnat hpres

end NextHead

namespace NextHead

/-! ## Behaviour of the meta category loop, per element -/

theorem metaLoop_cons_cat (mt : String) (rest : List String) (st : UniqueState)
    (p : Props) (hne : mt ≠ "charSet") (hp : hasProp p mt = true) :
    metaLoop (mt :: rest) st p =
      if getProp p mt ∈ st.metaCategories mt then (false, st)
      else metaLoop rest
        { st with metaCategories :=
            updateCats st.metaCategories mt (getProp p mt :: st.metaCategories mt) } p := by
  rw [metaLoop, if_pos hp, if_neg hne]

theorem metaLoop_cons_skip (mt : String) (rest : List String) (st : UniqueState)
    (p : Props) (hp : hasProp p mt = false) :
    metaLoop (mt :: rest) st p = metaLoop rest st p := by
  rw [metaLoop, if_neg (by simp [hp])]

theorem isMetaCharSet_spec {h : Element} (hm : isMetaCharSet h = true) :
    h.type = ETag.tag "meta" ∧ hasProp h.props "charSet" = true := by
  unfold isMetaCharSet at hm
  simpa [Bool.and_eq_true, decide_eq_true_eq] using hm

theorem metaName_spec {v : String} {h : Element} (hm : metaName v h = true) :
    h.type = ETag.tag "meta" ∧ getProp h.props "name" = some v := by
  unfold metaName at hm
  simpa [Bool.and_eq_true, decide_eq_true_eq] using hm

theorem uniqueStep_metaCharSet_reject {st : UniqueState} {h : Element}
    (ha : isAuto h = false) (hm : isMetaCharSet h = true)
    (hcs : "charSet" ∈ st.metaTypes) : (uniqueStep st h).1 = false := by
  obtain ⟨hty, hp⟩ := isMetaCharSet_spec hm
  rw [uniqueStep_not_auto ha, categoryRules_meta hty]
  exact metaLoop_charSet_reject METATYPES h.props (by decide) hp st hcs

theorem uniqueStep_metaCharSet_record {st : UniqueState} {h : Element}
    (ha : isAuto h = false) (hm : isMetaCharSet h = true)
    (htrue : (uniqueStep st h).1 = true) :
    "charSet" ∈ (uniqueStep st h).2.metaTypes := by
  obtain ⟨hty, hp⟩ := isMetaCharSet_spec hm
  rw [uniqueStep_not_auto ha, categoryRules_meta hty] at htrue ⊢
  exact metaLoop_charSet_record METATYPES h.props (by decide) hp st htrue

theorem uniqueStep_metaName_reject {st : UniqueState} {h : Element} {v : String}
    (ha : isAuto h = false) (hm : metaName v h = true)
    (hmem : some v ∈ st.metaCategories "name") : uniqueStep st h = (false, st) := by
  obtain ⟨hty, hgp⟩ := metaName_spec hm
  have hasp := hasProp_of_getProp hgp
  rw [uniqueStep_not_auto ha, categoryRules_meta hty,
    show METATYPES = "name" :: ["httpEquiv", "charSet", "itemProp"] from rfl,
    metaLoop_cons_cat "name" _ st h.props (by decide) hasp, hgp, if_pos hmem]

theorem uniqueStep_metaName_record {st : UniqueState} {h : Element} {v : String}
    (ha : isAuto h = false) (hm : metaName v h = true)
    (hmem : some v ∉ st.metaCategories "name") :
    some v ∈ (uniqueStep st h).2.metaCategories "name" := by
  obtain ⟨hty, hgp⟩ := metaName_spec hm
  have hasp := hasProp_of_getProp hgp
  rw [uniqueStep_not_auto ha, categoryRules_meta hty,
    show METATYPES = "name" :: ["httpEquiv", "charSet", "itemProp"] from rfl,
    metaLoop_cons_cat "name" _ st h.props (by decide) hasp, hgp, if_neg hmem]
  apply metaLoop_cats_mono
  simp [updateCats, hgp]

theorem uniqueStep_name_pres {st : UniqueState} {h : Element} {v : String}
    (hnm : ¬ metaName v h = true) :
    some v ∈ (uniqueStep st h).2.metaCategories "name" ↔
      some v ∈ st.metaCategories "name" := by
  constructor
  · intro hx
    rcases uniqueStep_cats_inv st h "name" (some v) hx with hl | ⟨hty, _, hgp⟩
    · exact hl
    · exact absurd (by simp [metaName, hty, hgp] : metaName v h = true) hnm
  · exact uniqueStep_cats_mono st h "name" (some v)

/-! ## The charSet and name passes -/

theorem filterUniqueAux_charSet_zero :
    ∀ (l : List Element) (st : UniqueState), (∀ e ∈ l, isAuto e = false) →
      "charSet" ∈ st.metaTypes →
      (filterUniqueAux st l).countP isMetaCharSet = 0 := by
  intro l
  induction l with
  | nil => intro st _ _; rfl
  | cons h t ih =>
      intro st hna hmem
      have hah : isAuto h = false := hna h (List.mem_cons_self _ _)
      have hnat : ∀ e ∈ t, isAuto e = false :=
        fun e he => hna e (List.mem_cons_of_mem _ he)
      have hpres := uniqueStep_metaTypes_mono st h "charSet" hmem
      by_cases hmc : isMetaCharSet h = true
      · have hb : (uniqueStep st h).1 = false :=
          uniqueStep_metaCharSet_reject hah hmc hmem
        rw [filterUniqueAux_cons, hb]
        simp only [Bool.false_eq_true, if_false]
        exact ih _ hnat hpres
      · rw [filterUniqueAux_cons]
        cases hb : (uniqueStep st h).1
        · simp only [Bool.false_eq_true, if_false]
          exact ih _ hnat hpres
        · simp only [if_true]
          rw [List.countP_cons, ih _ hnat hpres]
          simp [hmc]

theorem filterUniqueAux_charSet_le_one :
    ∀ (l : List Element) (st : UniqueState), (∀ e ∈ l, isAuto e = false) →
      (filterUniqueAux st l).countP isMetaCharSet ≤ 1 := by
  intro l
  induction l with
  | nil => intro st _; exact Nat.zero_le 1
  | cons h t ih =>
      intro st hna
      have hah : isAuto h = false := hna h (List.mem_cons_self _ _)
      have hnat : ∀ e ∈ t, isAuto e = false :=
        fun e he => hna e (List.mem_cons_of_mem _ he)
      rw [filterUniqueAux_cons]
      cases hb : (uniqueStep st h).1
      · simp only [Bool.false_eq_true, if_false]
        exact ih _ hnat
      · simp only [if_true]
        rw [List.countP_cons]
        by_cases hmc : isMetaCharSet h = true
        · have hrec := uniqueStep_metaCharSet_record hah hmc hb
          rw [filterUniqueAux_charSet_zero t _ hnat hrec]
          simp [hmc]
        · rw [if_neg (by simpa using hmc), Nat.add_zero]
          exact ih _ hnat

theorem filterUniqueAux_name_zero (v : String) :
    ∀ (l : List Element) (st : UniqueState), (∀ e ∈ l, isAuto e = false) →
      some v ∈ st.metaCategories "name" →
      (filterUniqueAux st l).filter (metaName v) = [] := by
  intro l
  induction l with
  | nil => intro st _ _; rfl
  | cons h t ih =>
      intro st hna hmem
      have hah : isAuto h = false := hna h (List.mem_cons_self _ _)
      have hnat : ∀ e ∈ t, isAuto e = false :=
        fun e he => hna e (List.mem_cons_of_mem _ he)
      have hpres := uniqueStep_cats_mono st h "name" (some v) hmem
      by_cases hm : metaName v h = true
      · have hstep := uniqueStep_metaName_reject hah hm hmem
        rw [filterUniqueAux_cons, hstep]
        simp only [Bool.false_eq_true, if_false]
        exact ih _ hnat (by simpa [hstep] using hpres)
      · rw [filterUniqueAux_cons]
        cases hb : (uniqueStep st h).1
        · simp only [Bool.false_eq_true, if_false]
          exact ih _ hnat hpres
        · simp only [if_true]
          rw [List.filter_cons, if_neg (by simpa using hm)]
          exact ih _ hnat hpres

theorem filterUniqueAux_name_take (v : String) :
    ∀ (l : List Element) (st : UniqueState), (∀ e ∈ l, isAuto e = false) →
      some v ∉ st.metaCategories "name" →
      (filterUniqueAux st l).filter (metaName v) = [] ∨
      (filterUniqueAux st l).filter (metaName v) =
        (l.filter (metaName v)).take 1 := by
  intro l
  induction l with
  | nil => intro st _ _; exact Or.inl rfl
  | cons h t ih =>
      intro st hna hmem
      have hah : isAuto h = false := hna h (List.mem_cons_self _ _)
      have hnat : ∀ e ∈ t, isAuto e = false :=
        fun e he => hna e (List.mem_cons_of_mem _ he)
      by_cases hm : metaName v h = true
      · have hrec := uniqueStep_metaName_record hah hm hmem
        rw [filterUniqueAux_cons]
        cases hb : (uniqueStep st h).1
        · simp only [Bool.false_eq_true, if_false]
          exact Or.inl (filterUniqueAux_name_zero v t _ hnat hrec)
        · simp only [if_true]
          refine Or.inr ?_
          rw [List.filter_cons, if_pos hm, List.filter_cons, if_pos hm,
            filterUniqueAux_name_zero v t _ hnat hrec]
          rfl
      · have hpres := @uniqueStep_name_pres st h v hm
        have hmem' : some v ∉ (uniqueStep st h).2.metaCategories "name" :=
          fun hx => hmem (hpres.mp hx)
        rw [filterUniqueAux_cons]
        cases hb : (uniqueStep st h).1
        · simp only [Bool.false_eq_true, if_false]
          rcases ih _ hnat hmem' with hl | hr
          · exact Or.inl hl
          · refine Or.inr ?_
            rw [List.filter_cons, if_neg (by simpa using hm)]
            exact hr
        · simp only [if_true]
          rw [List.filter_cons, if_neg (by simpa using hm)]
          rcases ih _ hnat hmem' with hl | hr
          · exact Or.inl hl
          · refine Or.inr ?_
            rw [List.filter_cons, if_neg (by simpa using hm)]
            exact hr

end NextHead

namespace NextHead

/-! ## Utilities about the final map, prop assignment and the defaults -/

theorem lookupProp_setProp :
    ∀ (p : Props) (k k' : String) (v : Option String),
      lookupProp (setProp p k v) k' = if k' = k then some v else lookupProp p k' := by
  intro p
  induction p with
  | nil =>
      intro k k' v
      simp only [setProp, lookupProp]
      by_cases h : k = k'
      · subst h; simp
      · rw [if_neg h, if_neg (Ne.symm h)]
  | cons kv rest ih =>
      obtain ⟨k0, v0⟩ := kv
      intro k k' v
      simp only [setProp]
      by_cases h0 : k0 = k
      · subst h0
        rw [if_pos rfl]
        simp only [lookupProp]
        by_cases h1 : k0 = k'
        · subst h1; simp
        · rw [if_neg h1, if_neg h1, if_neg (fun hh => h1 (Eq.symm hh))]
      · rw [if_neg h0]
        simp only [lookupProp]
        by_cases h1 : k0 = k'
        · subst h1
          rw [if_pos rfl, if_neg h0, if_pos rfl]
        · rw [if_neg h1, if_neg h1, ih]
  
theorem assignKeyClass_type (i : Nat) (c : Element) :
    (assignKeyClass i c).type = c.type := rfl

theorem assignKeyClass_props_ex (i : Nat) (c : Element) :
    ∃ v, (assignKeyClass i c).props = setProp c.props "className" v :=
  ⟨_, rfl⟩

theorem isTitle_assign (i : Nat) (c : Element) :
    isTitle (assignKeyClass i c) = isTitle c := rfl

theorem isBase_assign (i : Nat) (c : Element) :
    isBase (assignKeyClass i c) = isBase c := rfl

theorem isMetaCharSet_assign (i : Nat) (c : Element) :
    isMetaCharSet (assignKeyClass i c) = isMetaCharSet c := by
  obtain ⟨v, hv⟩ := assignKeyClass_props_ex i c
  unfold isMetaCharSet hasProp
  rw [assignKeyClass_type, hv, lookupProp_setProp, if_neg (by decide)]

theorem metaName_assign (v0 : String) (i : Nat) (c : Element) :
    metaName v0 (assignKeyClass i c) = metaName v0 c := by
  obtain ⟨v, hv⟩ := assignKeyClass_props_ex i c
  unfold metaName getProp
  rw [assignKeyClass_type, hv, lookupProp_setProp, if_neg (by decide)]

theorem countP_mapWithIndex (q : Element → Bool) (f : Nat → Element → Element)
    (hq : ∀ i c, q (f i c) = q c) :
    ∀ (l : List Element) (i : Nat), (mapWithIndex f i l).countP q = l.countP q := by
  intro l
  induction l with
  | nil => intro i; rfl
  | cons c t ih =>
      intro i
      rw [mapWithIndex, List.countP_cons, List.countP_cons, hq, ih]

theorem countP_reduceHead (q : Element → Bool)
    (hq : ∀ i c, q (assignKeyClass i c) = q c)
    (refs : List (List RNode)) (amp : Bool) :
    (reduceHeadInstances refs amp).countP q =
      (filterUnique ((flattenRefs refs).reverse ++ defaultHead "" amp)).countP q := by
  unfold reduceHeadInstances
  rw [countP_mapWithIndex q assignKeyClass hq, List.countP_reverse]

theorem defaultHead_noAuto (amp : Bool) :
    ∀ e ∈ defaultHead "" amp, isAuto e = false := by
  cases amp <;> decide

theorem noAuto_append {refs : List (List RNode)} (amp : Bool)
    (hna : ∀ e ∈ flattenRefs refs, isAuto e = false) :
    ∀ e ∈ (flattenRefs refs).reverse ++ defaultHead "" amp, isAuto e = false := by
  intro e he
  rcases List.mem_append.mp he with h1 | h2
  · exact hna e (List.mem_reverse.mp h1)
  · exact defaultHead_noAuto amp e h2

theorem defaultHead_filter_title (amp : Bool) :
    (defaultHead "" amp).filter isTitle = [] := by
  cases amp <;> rfl

theorem defaultHead_filter_base (amp : Bool) :
    (defaultHead "" amp).filter isBase = [] := by
  cases amp <;> rfl

theorem defaultHead_filter_tb (amp : Bool) (cn : String) :
    (defaultHead cn amp).filter (fun e => isTitle e || isBase e) = [] := by
  cases amp <;> rfl

end NextHead

namespace NextHead

theorem hasProp_of_isSome {p : Props} {k : String}
    (h : (getProp p k).isSome = true) : hasProp p k = true := by
  unfold getProp at h
  unfold hasProp
  cases hl : lookupProp p k with
  | none => rw [hl] at h; simp at h
  | some w => simp

theorem nameOnlyMeta_spec {h : Element} (hno : nameOnlyMeta h = true) :
    isAuto h = false ∧ h.type = ETag.tag "meta" ∧
    (getProp h.props "name").isSome = true ∧
    hasProp h.props "httpEquiv" = false ∧ hasProp h.props "charSet" = false ∧
    hasProp h.props "itemProp" = false := by
  unfold nameOnlyMeta at hno
  simpa [Bool.and_eq_true, Bool.not_eq_true', decide_eq_true_eq, and_assoc]
    using hno

theorem uniqueStep_nameOnly {st : UniqueState} {h : Element}
    (hno : nameOnlyMeta h = true)
    (hmem : getProp h.props "name" ∉ st.metaCategories "name") :
    uniqueStep st h =
      (true, { st with metaCategories := updateCats st.metaCategories "name" (getProp h.props "name" :: st.metaCategories "name") }) := by
  obtain ⟨ha, hty, hsome, hh, hc, hi⟩ := nameOnlyMeta_spec hno
  have hasp := hasProp_of_isSome hsome
  rw [uniqueStep_not_auto ha, categoryRules_meta hty,
    show METATYPES = "name" :: ["httpEquiv", "charSet", "itemProp"] from rfl,
    metaLoop_cons_cat "name" _ st h.props (by decide) hasp, if_neg hmem,
    metaLoop_cons_skip _ _ _ _ hh, metaLoop_cons_skip _ _ _ _ hc,
    metaLoop_cons_skip _ _ _ _ hi]
  rfl

/-- FL5: a run of pairwise-distinct, name-only, unkeyed metas whose values are
all unseen passes the filter untouched. -/
theorem filterUniqueAux_nameOnly :
    ∀ (l : List Element) (st : UniqueState),
      (∀ e ∈ l, nameOnlyMeta e = true) →
      (l.map (fun e => getProp e.props "name")).Nodup →
      (∀ e ∈ l, getProp e.props "name" ∉ st.metaCategories "name") →
      filterUniqueAux st l = l := by
  intro l
  induction l with
  | nil => intro st _ _ _; rfl
  | cons h t ih =>
      intro st hno hnd hfresh
      have hnoh : nameOnlyMeta h = true := hno h (List.mem_cons_self _ _)
      have hstep := uniqueStep_nameOnly hnoh (hfresh h (List.mem_cons_self _ _))
      rw [filterUniqueAux_cons, hstep]
      simp only [if_true]
      have hnd2 : (getProp h.props "name" ∉
          t.map fun e => getProp e.props "name") ∧
          (t.map fun e => getProp e.props "name").Nodup := by
        rw [List.map_cons] at hnd
        exact List.nodup_cons.mp hnd
      rw [ih _ (fun e he => hno e (List.mem_cons_of_mem _ he)) hnd2.2 ?_]
      intro e he hx
      simp only [updateCats, if_pos rfl] at hx
      rcases List.mem_cons.mp hx with he2 | he2
      · exact hnd2.1 (List.mem_map.mpr ⟨e, he, he2⟩)
      · exact hfresh e (List.mem_cons_of_mem _ he) he2

end NextHead

namespace NextHead

/-! ## The flatten step, characterised -/

theorem foldl_append_flatMap {α β : Type} (f : List β → α → List β)
    (g : α → List β) (hf : ∀ acc c, f acc c = acc ++ g c) :
    ∀ (l : List α) (acc : List β), l.foldl f acc = acc ++ l.flatMap g := by
  intro l
  induction l with
  | nil => intro acc; simp
  | cons c t ih =>
      intro acc
      rw [List.foldl_cons, hf, ih, List.flatMap_cons, List.append_assoc]

theorem fragmentReducer_eq (acc : List Element) (c : RNode) :
    fragmentReducer acc c = acc ++ elemChildOnly c := by
  cases c <;> simp [fragmentReducer, elemChildOnly]

theorem onlyReactElement_eq (list : List Element) (child : RNode) :
    onlyReactElement list child = list ++ flattenSpecOneLevel child := by
  cases child with
  | text s => simp [onlyReactElement, flattenSpecOneLevel]
  | num n => simp [onlyReactElement, flattenSpecOneLevel]
  | elem e =>
      by_cases he : e.type = ETag.fragment
      · simp only [onlyReactElement, flattenSpecOneLevel, he, if_pos]
        rw [foldl_append_flatMap fragmentReducer elemChildOnly fragmentReducer_eq,
          List.nil_append]
      · simp [onlyReactElement, flattenSpecOneLevel, he]

/-- C6 (amended): the flatten step concatenates the re-keyed contributions in
registration order and performs ONE level of fragment flattening: each
top-level fragment is replaced by its element children (strings and numbers
dropped at both levels); it does not recurse into nested fragments. -/
theorem claim_C6_amended : ∀ refs : List (List RNode),
    flattenRefs refs = (refs.flatMap toArray).flatMap flattenSpecOneLevel := by
  intro refs
  unfold flattenRefs
  rw [foldl_append_flatMap (fun list r => list ++ toArray r) toArray
    (fun _ _ => rfl) refs [], List.nil_append,
    foldl_append_flatMap onlyReactElement flattenSpecOneLevel
      onlyReactElement_eq _ [], List.nil_append]

/-! ## Claim C7 -/

/-- C7: an element whose key matches the reserved auto pattern is
deduplicated by that key alone: for any auto key `k`, the survivors of the
dedup pass carrying key `k` are exactly the first occurrence of a `k`-keyed
element in pass order — i.e. the latest-registered one — independent of tag
type, attributes, and of every category rule. -/
theorem claim_C7 : ∀ (refs : List (List RNode)) (amp : Bool) (k : String),
    startsWithAuto k = true →
    (filterUnique ((flattenRefs refs).reverse ++ defaultHead "" amp)).filter (keyIs k)
      = (((flattenRefs refs).filter (keyIs k)).reverse).take 1 := by
  intro refs amp k hk
  have hmain := (filterUniqueAux_keyIs k hk
    ((flattenRefs refs).reverse ++ defaultHead "" amp) initState).2
    (by simp [initState])
  have hdef : (defaultHead "" amp).filter (keyIs k) = [] := by
    have hc : keyIs k (charSetMeta "") = false := by
      simp only [keyIs, charSetMeta, Element.key, Option.some.injEq,
        decide_eq_false_iff_not]
      intro he
      rw [← he] at hk
      exact absurd hk (by decide)
    have hv : keyIs k (viewportMeta "") = false := by
      simp only [keyIs, viewportMeta, Element.key, Option.some.injEq,
        decide_eq_false_iff_not]
      intro he
      rw [← he] at hk
      exact absurd hk (by decide)
    cases amp
    · show List.filter (keyIs k) [charSetMeta "", viewportMeta ""] = []
      rw [List.filter_cons, if_neg (by simp [hc]),
        List.filter_cons, if_neg (by simp [hv])]
      rfl
    · show List.filter (keyIs k) [charSetMeta ""] = []
      rw [List.filter_cons, if_neg (by simp [hc])]
      rfl
  calc (filterUnique ((flattenRefs refs).reverse ++ defaultHead "" amp)).filter (keyIs k)
      = ((((flattenRefs refs).reverse ++ defaultHead "" amp)).filter (keyIs k)).take 1 :=
        hmain
    _ = (((flattenRefs refs).filter (keyIs k)).reverse).take 1 := by
        rw [List.filter_append, List.filter_reverse, hdef, List.append_nil]

/-- C7 witness: two elements registered with the same caller key `"a"` (a
title and a meta) both carry auto key `".$a"`; only the later-registered one
(the meta) survives. -/
theorem claim_C7_witness :
    startsWithAuto ".$a" = true ∧
    (filterUnique ((flattenRefs [[sampleTitle (some "a") "T"],
        [sampleMetaName (some "a") "x" "1"]]).reverse ++ defaultHead "" false)).filter
        (keyIs ".$a")
      = (((flattenRefs [[sampleTitle (some "a") "T"],
          [sampleMetaName (some "a") "x" "1"]]).filter (keyIs ".$a")).reverse).take 1 :=
  ⟨by decide, claim_C7 _ false ".$a" (by decide)⟩

end NextHead

namespace NextHead

/-! ## Claims C2, C3, C4 (amended) -/

/-- C3 (amended): among contributions that carry no reserved auto key, at
most one meta with a `charSet` attribute survives in the merged output,
globally across all contributors and the defaults.  (The counterexample shows
the restriction to non-auto-keyed elements is necessary.) -/
theorem claim_C3_amended : ∀ (refs : List (List RNode)) (amp : Bool),
    (∀ e ∈ flattenRefs refs, isAuto e = false) →
    (reduceHeadInstances refs amp).countP isMetaCharSet ≤ 1 := by
  intro refs amp hna
  rw [countP_reduceHead isMetaCharSet isMetaCharSet_assign refs amp]
  exact filterUniqueAux_charSet_le_one _ initState (noAuto_append amp hna)

/-- C3 witness: a single unkeyed charSet meta contribution satisfies the
no-auto-key hypothesis and the merged output keeps at most one charSet
meta. -/
theorem claim_C3_witness :
    (∀ e ∈ flattenRefs [[sampleMetaCharSet none]], isAuto e = false) ∧
    (reduceHeadInstances [[sampleMetaCharSet none]] false).countP isMetaCharSet ≤ 1 :=
  ⟨by decide, claim_C3_amended _ false (by decide)⟩

/-- C2 (amended): among contributions that carry no reserved auto key, the
merged output holds at most one `title` and at most one `base`; the dedup
pass keeps exactly the latest-registered `title` (resp. `base`); and the
defaults contain no `title` or `base`, so real contributions trivially take
precedence over them in these categories.  (The counterexample shows the
restriction to non-auto-keyed elements is necessary.) -/
theorem claim_C2_amended : ∀ (refs : List (List RNode)) (amp : Bool),
    (∀ e ∈ flattenRefs refs, isAuto e = false) →
    (reduceHeadInstances refs amp).countP isTitle ≤ 1 ∧
    (reduceHeadInstances refs amp).countP isBase ≤ 1 ∧
    (filterUnique ((flattenRefs refs).reverse ++ defaultHead "" amp)).filter isTitle
      = (((flattenRefs refs).filter isTitle).reverse).take 1 ∧
    (filterUnique ((flattenRefs refs).reverse ++ defaultHead "" amp)).filter isBase
      = (((flattenRefs refs).filter isBase).reverse).take 1 ∧
    ∀ cn : String,
      (defaultHead cn amp).filter (fun e => isTitle e || isBase e) = [] := by
  intro refs amp hna
  have hX := noAuto_append amp hna
  have htitle := filterUniqueAux_tag_take (ETag.tag "title") (Or.inl rfl)
    ((flattenRefs refs).reverse ++ defaultHead "" amp) initState hX
    (by simp [initState])
  have hbase := filterUniqueAux_tag_take (ETag.tag "base") (Or.inr rfl)
    ((flattenRefs refs).reverse ++ defaultHead "" amp) initState hX
    (by simp [initState])
  have hit : (fun e => decide (e.type = ETag.tag "title")) = isTitle := rfl
  have hib : (fun e => decide (e.type = ETag.tag "base")) = isBase := rfl
  rw [hit] at htitle
  rw [hib] at hbase
  have hXtitle : (((flattenRefs refs).reverse ++ defaultHead "" amp)).filter isTitle
      = ((flattenRefs refs).filter isTitle).reverse := by
    rw [List.filter_append, List.filter_reverse, defaultHead_filter_title amp,
      List.append_nil]
  have hXbase : (((flattenRefs refs).reverse ++ defaultHead "" amp)).filter isBase
      = ((flattenRefs refs).filter isBase).reverse := by
    rw [List.filter_append, List.filter_reverse, defaultHead_filter_base amp,
      List.append_nil]
  rw [hXtitle] at htitle
  rw [hXbase] at hbase
  refine ⟨?_, ?_, htitle, hbase, fun cn => defaultHead_filter_tb amp cn⟩
  · rw [countP_reduceHead isTitle isTitle_assign refs amp,
      List.countP_eq_length_filter]
    rw [show (filterUnique ((flattenRefs refs).reverse ++ defaultHead "" amp)).filter isTitle
        = (((flattenRefs refs).filter isTitle).reverse).take 1 from htitle]
    exact List.length_take_le 1 _
  · rw [countP_reduceHead isBase isBase_assign refs amp,
      List.countP_eq_length_filter]
    rw [show (filterUnique ((flattenRefs refs).reverse ++ defaultHead "" amp)).filter isBase
        = (((flattenRefs refs).filter isBase).reverse).take 1 from hbase]
    exact List.length_take_le 1 _

/-- C2 witness: two unkeyed titles from two contributors satisfy the
hypothesis; the merged output keeps at most one title and the dedup pass
keeps exactly the later-registered one. -/
theorem claim_C2_witness :
    (∀ e ∈ flattenRefs [[sampleTitle none "A"], [sampleTitle none "B"]],
      isAuto e = false) ∧
    ((reduceHeadInstances [[sampleTitle none "A"], [sampleTitle none "B"]] false).countP
        isTitle ≤ 1 ∧
      (reduceHeadInstances [[sampleTitle none "A"], [sampleTitle none "B"]] false).countP
        isBase ≤ 1 ∧
      (filterUnique ((flattenRefs [[sampleTitle none "A"], [sampleTitle none "B"]]).reverse
          ++ defaultHead "" false)).filter isTitle
        = (((flattenRefs [[sampleTitle none "A"], [sampleTitle none "B"]]).filter
            isTitle).reverse).take 1 ∧
      (filterUnique ((flattenRefs [[sampleTitle none "A"], [sampleTitle none "B"]]).reverse
          ++ defaultHead "" false)).filter isBase
        = (((flattenRefs [[sampleTitle none "A"], [sampleTitle none "B"]]).filter
            isBase).reverse).take 1 ∧
      ∀ cn : String,
        (defaultHead cn false).filter (fun e => isTitle e || isBase e) = []) :=
  ⟨by decide, claim_C2_amended _ false (by decide)⟩

/-- C4 (amended): among contributions without reserved auto keys, for every
`name` value `v` the merged output holds at most one meta named `v`; the
dedup pass keeps either nothing (the latest-registered candidate can itself
be dropped by another identity category) or exactly the first `v`-named meta
in precedence order, i.e. the latest-registered one; and when every flattened
element is an unkeyed meta whose only identity attribute is `name`, with
pairwise-distinct values, all of them survive.  (The counterexample shows
the restriction to non-auto-keyed elements is necessary.) -/
theorem claim_C4_amended : ∀ (refs : List (List RNode)) (amp : Bool) (v : String),
    (∀ e ∈ flattenRefs refs, isAuto e = false) →
    (reduceHeadInstances refs amp).countP (metaName v) ≤ 1 ∧
    ((filterUnique ((flattenRefs refs).reverse ++ defaultHead "" amp)).filter (metaName v)
        = [] ∨
      (filterUnique ((flattenRefs refs).reverse ++ defaultHead "" amp)).filter (metaName v)
        = ((((flattenRefs refs).reverse ++ defaultHead "" amp)).filter (metaName v)).take 1) ∧
    ((∀ e ∈ flattenRefs refs, nameOnlyMeta e = true) →
      ((flattenRefs refs).map (fun e => getProp e.props "name")).Nodup →
      ∀ e ∈ flattenRefs refs,
        e ∈ filterUnique ((flattenRefs refs).reverse ++ defaultHead "" amp)) := by
  intro refs amp v hna
  have hX := noAuto_append amp hna
  have hdisj := filterUniqueAux_name_take v
    ((flattenRefs refs).reverse ++ defaultHead "" amp) initState hX
    (by simp [initState])
  refine ⟨?_, hdisj, ?_⟩
  · rw [countP_reduceHead (metaName v) (metaName_assign v) refs amp,
      List.countP_eq_length_filter]
    rcases hdisj with hl | hr
    · rw [show (filterUnique ((flattenRefs refs).reverse ++ defaultHead "" amp)).filter
          (metaName v) = [] from hl]
      exact Nat.zero_le 1
    · rw [show (filterUnique ((flattenRefs refs).reverse ++ defaultHead "" amp)).filter
          (metaName v)
          = ((((flattenRefs refs).reverse ++ defaultHead "" amp)).filter (metaName v)).take 1
          from hr]
      exact List.length_take_le 1 _
  · intro hno hnd e he
    have hall : filterUniqueAux initState ((flattenRefs refs).reverse)
        = (flattenRefs refs).reverse := by
      apply filterUniqueAux_nameOnly
      · intro e2 he2
        exact hno e2 (List.mem_reverse.mp he2)
      · rw [List.map_reverse]
        exact List.nodup_reverse.mpr hnd
      · intro e2 _
        simp [initState]
    show e ∈ filterUniqueAux initState
      ((flattenRefs refs).reverse ++ defaultHead "" amp)
    rw [filterUniqueAux_append, hall]
    exact List.mem_append_left _ (List.mem_reverse.mpr he)

/-- C4 witness: the spec's own example — contributor A registers a
description meta with content `"x"`, later-registered contributor B one with
content `"y"`; the hypotheses hold, at most one description meta survives,
and (checked directly) the survivor in the merged output is B's, with
content `"y"`. -/
theorem claim_C4_witness :
    (∀ e ∈ flattenRefs [[sampleMetaName none "description" "x"],
        [sampleMetaName none "description" "y"]], isAuto e = false) ∧
    (reduceHeadInstances [[sampleMetaName none "description" "x"],
        [sampleMetaName none "description" "y"]] false).countP
      (metaName "description") ≤ 1 ∧
    (reduceHeadInstances [[sampleMetaName none "description" "x"],
        [sampleMetaName none "description" "y"]] false).countP
      (fun e => metaName "description" e && decide (getProp e.props "content" = some "y"))
      = 1 :=
  ⟨by decide,
    (claim_C4_amended [[sampleMetaName none "description" "x"],
      [sampleMetaName none "description" "y"]] false "description" (by decide)).1,
    by decide⟩

end NextHead
